import Mathlib

/-!
Verification of the AetherChain ledger and consensus engine.

The Go source is shallowly embedded as follows. Go float64 amounts are
modelled as exact integers, which is faithful for the ledger logic
because no operation of the source divides, rounds or scales an amount:
every arithmetic step is an addition, a subtraction or a comparison, so
the exact model and the source agree on every integer-valued run, and
exact integers keep every statement evaluable inside the kernel. Go maps
with zero default reads are modelled as total
functions, and mutating methods as functions returning the new state
together with the Go error value. The SHA-256 digests over JSON
serializations are abstracted into a record of digest functions, a
HashModel, because every property of interest depends only on which
fields feed each digest, never on the digest bits; concrete hash models
are supplied when a statement is evaluated on concrete inputs.
-/

namespace AetherChain

/-- Fields of a transaction that feed its hash, mirroring the anonymous
struct built inside Transaction.CalculateHash in the source: exactly
version, from, to, amount, fee, nonce and timestamp. -/
structure TxHashData where
  version : Int
  fromAddr : String
  toAddr : String
  amount : Int
  fee : Int
  nonce : Int
  timestamp : Int
deriving DecidableEq

/-- Fields of a block that feed its hash, mirroring the anonymous struct
built inside Block.CalculateHash in the source: all header fields except
the stored hash itself. -/
structure BlockHashData where
  version : Int
  index : Nat
  timestamp : Int
  prevHash : String
  merkleRoot : String
  nonce : Nat
  difficulty : Nat
deriving DecidableEq

/-- Digest functions of the implementation, abstracted. In the Go source
each one is the hex encoding of a SHA-256 digest of a JSON
serialization; the development is parametric in them. The field
strDigest stands for hashing a raw string, used for signatures and for
the merkle root. -/
structure HashModel where
  txDigest : TxHashData → String
  blockDigest : BlockHashData → String
  strDigest : String → String

/-- Transaction record of the source. Go field names from and to are
spelled fromAddr and toAddr because from is a reserved word in Lean. -/
structure Transaction where
  version : Int
  hash : String
  fromAddr : String
  toAddr : String
  amount : Int
  fee : Int
  nonce : Int
  timestamp : Int
  signature : String
  publicKey : String
  status : String
  blockHash : String
deriving DecidableEq

/-- Block record of the source. -/
structure Block where
  version : Int
  index : Nat
  timestamp : Int
  prevHash : String
  merkleRoot : String
  transactions : List Transaction
  nonce : Nat
  difficulty : Nat
  hash : String
  miner : String
  blockReward : Int
deriving DecidableEq

/-- Projection of a transaction onto the fields that feed its hash. -/
def txHashData (tx : Transaction) : TxHashData :=
  { version := tx.version
    fromAddr := tx.fromAddr
    toAddr := tx.toAddr
    amount := tx.amount
    fee := tx.fee
    nonce := tx.nonce
    timestamp := tx.timestamp }

/-- Transaction.CalculateHash of the source: digest of the seven hashed
fields. -/
def Transaction.CalculateHash (hm : HashModel) (tx : Transaction) : String :=
  hm.txDigest (txHashData tx)

/-- Transaction.VerifySignature of the source: an empty signature is
invalid, otherwise the signature must equal the digest of the stored
hash concatenated with the public key. -/
def Transaction.VerifySignature (hm : HashModel) (tx : Transaction) : Bool :=
  if tx.signature = "" then false
  else tx.signature == hm.strDigest (tx.hash ++ tx.publicKey)

/-- Transaction.IsValid of the source: positive amount, distinct sender
and recipient, verifying signature. -/
def Transaction.IsValid (hm : HashModel) (tx : Transaction) : Bool :=
  if tx.amount ≤ 0 then false
  else if tx.fromAddr = tx.toAddr then false
  else if ¬ tx.VerifySignature hm then false
  else true

/-- Projection of a block onto the fields that feed its hash. -/
def blockHashData (b : Block) : BlockHashData :=
  { version := b.version
    index := b.index
    timestamp := b.timestamp
    prevHash := b.prevHash
    merkleRoot := b.merkleRoot
    nonce := b.nonce
    difficulty := b.difficulty }

/-- Block.CalculateHash of the source: digest of all header fields
except the stored hash. -/
def Block.CalculateHash (hm : HashModel) (b : Block) : String :=
  hm.blockDigest (blockHashData b)

/-- Block.CalculateMerkleRoot of the source: empty string for an empty
transaction list, otherwise the digest of the ordered concatenation of
the transaction hashes. -/
def CalculateMerkleRoot (hm : HashModel) (txs : List Transaction) : String :=
  if txs.isEmpty then ""
  else hm.strDigest (txs.foldl (fun s tx => s ++ tx.hash) "")

/-- String of the given number of zero characters, as built by the loop
in ProofOfWork.IsValidHash. -/
def zeroString (d : Nat) : String :=
  String.mk (List.replicate d '0')

/-- ProofOfWork.IsValidHash of the source: the hash is long enough and
its first difficulty characters are all zero. -/
def IsValidHash (d : Nat) (hash : String) : Bool :=
  decide (d ≤ hash.length) && (hash.take d == zeroString d)

/-- ProofOfWork.Validate of the source: recompute the block hash at the
recorded nonce and check it against the difficulty. -/
def Validate (hm : HashModel) (b : Block) (d : Nat) : Bool :=
  IsValidHash d (b.CalculateHash hm)

/-- MaxNonce of the source: the mining attempt ceiling. -/
def MaxNonce : Nat := 100000000

/-- Fuel-indexed mining loop. mineAux hm b d fuel start tries the nonces
start, start+1, ... for fuel attempts, returning the first nonce whose
recomputed block hash satisfies the difficulty, with that hash. -/
def mineAux (hm : HashModel) (b : Block) (d : Nat) : Nat → Nat → Option (Nat × String)
  | 0, _ => none
  | fuel+1, nonce =>
    let h := Block.CalculateHash hm { b with nonce := nonce }
    if IsValidHash d h then some (nonce, h) else mineAux hm b d fuel (nonce+1)

/-- ProofOfWork.Mine of the source: search nonces from 0, incrementing
by 1, up to the MaxNonce ceiling; none models the mining failure error. -/
def Mine (hm : HashModel) (b : Block) (d : Nat) : Option (Nat × String) :=
  mineAux hm b d MaxNonce 0

/-- Blockchain state of the source: chain, the two transaction lists,
parameters, and the account map. The account map is modelled as a total
function because Go map reads of absent keys yield the zero value. -/
structure BC where
  chain : List Block
  pendingTx : List Transaction
  difficulty : Nat
  blockReward : Int
  accounts : String → Int
  transactionPool : List Transaction

/-- Pointwise map update, modelling a Go map assignment. -/
def updAcc (f : String → Int) (a : String) (v : Int) : String → Int :=
  fun x => if x = a then v else f x

/-- Blockchain.processTransaction of the source: debit the sender by
amount plus fee, then credit the recipient by amount. -/
def processTransaction (acc : String → Int) (tx : Transaction) : String → Int :=
  let acc1 := updAcc acc tx.fromAddr (acc tx.fromAddr - (tx.amount + tx.fee))
  updAcc acc1 tx.toAddr (acc1 tx.toAddr + tx.amount)

/-- Blockchain.removeProcessedTransactions of the source: keep exactly
the pool entries whose hash is not the hash of a processed transaction. -/
def removeProcessedTransactions (pool processed : List Transaction) : List Transaction :=
  pool.filter (fun tx => ! processed.any (fun p => p.hash == tx.hash))

/-- Blockchain.IsValidBlock of the source, with the same check order:
index against chain length, prevHash against the tip hash, proof of work
at the chain difficulty, and intrinsic validity of every contained
transaction. On an empty chain the Go code would panic reading the tip;
that state is unreachable after initialization and is modelled as
rejection. -/
def IsValidBlock (hm : HashModel) (bc : BC) (b : Block) : Bool :=
  if b.index ≠ bc.chain.length then false
  else
    match bc.chain.getLast? with
    | none => false
    | some tip =>
      if b.prevHash ≠ tip.hash then false
      else if ¬ Validate hm b bc.difficulty then false
      else b.transactions.all (fun tx => tx.IsValid hm)

/-- Blockchain.AddBlock of the source: on a valid block, process every
contained transaction in order, credit the miner with the block reward
field of the block, append the block, and drop the processed
transactions from the pool; otherwise leave the state unchanged and
return the error. -/
def AddBlock (hm : HashModel) (bc : BC) (b : Block) : BC × Option String :=
  if IsValidBlock hm bc b then
    let acc1 := b.transactions.foldl processTransaction bc.accounts
    let acc2 := updAcc acc1 b.miner (acc1 b.miner + b.blockReward)
    ({ bc with
        accounts := acc2
        chain := bc.chain ++ [b]
        transactionPool := removeProcessedTransactions bc.transactionPool b.transactions },
     none)
  else (bc, some "invalid block")

/-- Blockchain.AddTransaction of the source: reject an intrinsically
invalid transaction, reject when the committed balance of the sender is
below amount plus fee, otherwise append to the pool. -/
def AddTransaction (hm : HashModel) (bc : BC) (tx : Transaction) : BC × Option String :=
  if ¬ tx.IsValid hm then (bc, some "invalid transaction")
  else if bc.accounts tx.fromAddr < tx.amount + tx.fee then (bc, some "insufficient balance")
  else ({ bc with transactionPool := bc.transactionPool ++ [tx] }, none)

/-- Blockchain.GetBalance of the source, a pure read of the account map
with zero default. -/
def GetBalance (bc : BC) (address : String) : Int :=
  bc.accounts address

/-- One step of Blockchain.IsChainValid: the stored hash of the current
block equals its recomputed hash, the prevHash links to the stored hash
of the predecessor, and the proof of work holds at the chain
difficulty. -/
def chainStepOk (hm : HashModel) (d : Nat) (prev cur : Block) : Bool :=
  (cur.hash == cur.CalculateHash hm) && (cur.prevHash == prev.hash) && Validate hm cur d

/-- Tail of the IsChainValid loop, walking consecutive pairs. -/
def isChainValidFrom (hm : HashModel) (d : Nat) : Block → List Block → Bool
  | _, [] => true
  | prev, cur :: rest => chainStepOk hm d prev cur && isChainValidFrom hm d cur rest

/-- Blockchain.IsChainValid of the source: the loop starts at index 1,
so the genesis block itself is only ever read as a predecessor. -/
def IsChainValid (hm : HashModel) (bc : BC) : Bool :=
  match bc.chain with
  | [] => true
  | g :: rest => isChainValidFrom hm bc.difficulty g rest

/-- Genesis transaction created by Blockchain.CreateGenesisBlock, with
the fixed timestamp of 2024-01-01 UTC. -/
def genesisTransaction : Transaction :=
  { version := 1
    hash := "genesis_transaction"
    fromAddr := "0"
    toAddr := "genesis_address"
    amount := 1000000
    fee := 0
    nonce := 0
    timestamp := 1704067200
    signature := ""
    publicKey := ""
    status := "confirmed"
    blockHash := "" }

/-- Genesis block created by Blockchain.CreateGenesisBlock via NewBlock:
index 0, prevHash "0", miner genesis_miner, block reward 50, stored hash
computed once. The creation timestamp is a parameter because the source
reads the wall clock. -/
def genesisBlock (hm : HashModel) (difficulty : Nat) (ts : Int) : Block :=
  let base : Block :=
    { version := 1
      index := 0
      timestamp := ts
      prevHash := "0"
      merkleRoot := CalculateMerkleRoot hm [genesisTransaction]
      transactions := [genesisTransaction]
      nonce := 0
      difficulty := difficulty
      hash := ""
      miner := "genesis_miner"
      blockReward := 50 }
  { base with hash := base.CalculateHash hm }

/-- NewBlockchain of the source: a single genesis block, empty pools,
and the genesis allocation of 1000000 to genesis_address. -/
def NewBlockchain (hm : HashModel) (difficulty : Nat) (blockReward : Int) (ts : Int) : BC :=
  { chain := [genesisBlock hm difficulty ts]
    pendingTx := []
    difficulty := difficulty
    blockReward := blockReward
    accounts := updAcc (fun _ => 0) "genesis_address" 1000000
    transactionPool := [] }

/-- States reachable from a freshly initialized blockchain by any
sequence of transaction admissions and block submissions. Rejected
operations return the unchanged state, so failed attempts are covered. -/
inductive Reachable (hm : HashModel) : BC → Prop where
  | genesis (difficulty : Nat) (blockReward : Int) (ts : Int) :
      Reachable hm (NewBlockchain hm difficulty blockReward ts)
  | admitTx {bc : BC} (tx : Transaction) :
      Reachable hm bc → Reachable hm (AddTransaction hm bc tx).1
  | commitBlock {bc : BC} (b : Block) :
      Reachable hm bc → Reachable hm (AddBlock hm bc b).1

/-- Sender and recipient addresses of a transaction list. -/
def txAddrsList (txs : List Transaction) : List String :=
  txs.foldr (fun tx l => tx.fromAddr :: tx.toAddr :: l) []

/-- Addresses occurring in a block as miner, sender or recipient. -/
def blockAddrs (b : Block) : List String :=
  b.miner :: txAddrsList b.transactions

/-- Addresses occurring in any block of a chain. -/
def chainAddrs (c : List Block) : List String :=
  c.foldr (fun b l => blockAddrs b ++ l) []

/-- Addresses that have appeared in the genesis allocation or in any
committed block of the chain. -/
def touchedAddrs (bc : BC) : List String :=
  "genesis_address" :: chainAddrs bc.chain

/-- Sum of the balances of the listed addresses. -/
def listSum (S : List String) (f : String → Int) : Int :=
  (S.map f).sum

/-- Blocks committed after the genesis block. -/
def minedBlocks (bc : BC) : List Block :=
  bc.chain.drop 1

/-- Sum of the block reward fields of the blocks committed after
genesis. -/
def rewardsSum (bc : BC) : Int :=
  ((minedBlocks bc).map Block.blockReward).sum

/-- Sum of the fees of all transactions in the blocks committed after
genesis. -/
def feesSum (bc : BC) : Int :=
  ((minedBlocks bc).map (fun b => (b.transactions.map Transaction.fee).sum)).sum

/-- Validator.isDuplicateTransaction of the source: whether the pool
already holds a transaction with the same hash. -/
def isDuplicateTransaction (bc : BC) (tx : Transaction) : Bool :=
  bc.transactionPool.any (fun e => e.hash == tx.hash)

/-- Peer record of the network layer, without the socket. -/
structure NPeer where
  id : String
  address : String
  connected : Bool
deriving DecidableEq

/-- Node state relevant to message handling: the peer registry and the
owned blockchain. -/
structure NodeSt where
  peers : List NPeer
  bc : BC

/-- Node.BroadcastMessage of the source: write the message to every
connected peer of the registry, with no exclusions. The result lists the
performed sends as pairs of peer id and message. -/
def BroadcastMessage (peers : List NPeer) (message : String) : List (String × String) :=
  (peers.filter (fun p => p.connected)).map (fun p => (p.id, message))

/-- MessageHandler.handleNewBlock of the source: if the announced block
passes IsValidBlock it is submitted through AddBlock, whose error the
handler ignores, and the raw message is re-broadcast over the peer
registry; otherwise nothing happens. The origin argument is the peer the
message arrived from; the source uses it only for logging and never
excludes it from the broadcast. -/
def handleNewBlock (hm : HashModel) (n : NodeSt) (origin : NPeer) (block : Block)
    (rawData : String) : NodeSt × List (String × String) :=
  if IsValidBlock hm n.bc block then
    ({ n with bc := (AddBlock hm n.bc block).1 }, BroadcastMessage n.peers rawData)
  else (n, [])

/-- Concrete hash model used to evaluate statements on concrete inputs:
string-building digests that record the fields they are fed. -/
def hm0 : HashModel :=
  { txDigest := fun d => "T|" ++ d.fromAddr ++ "|" ++ d.toAddr
    blockDigest := fun h => "B|" ++ h.prevHash ++ "|" ++ h.merkleRoot
    strDigest := fun s => "sig|" ++ s }

/-- Concrete hash model whose block digest meets difficulty 1 exactly at
nonce 2, used to exercise the mining search. -/
def hm1 : HashModel :=
  { txDigest := fun _ => ""
    blockDigest := fun h => if h.nonce = 2 then "0w" else "xx"
    strDigest := fun s => s }

/-- Genesis block of the concrete model at difficulty 0. -/
def g0 : Block := genesisBlock hm0 0 0

/-- Freshly initialized chain under the concrete model, difficulty 0 and
block reward 50. -/
def st0 : BC := NewBlockchain hm0 0 50 0

/-- Concrete transaction builder: the signature is the hm0 digest of the
stored hash concatenated with the public key, so the transaction is
intrinsically valid whenever its amount is positive and sender and
recipient differ. -/
def mkTx (h f t : String) (amount fee : Int) (nonce : Int) : Transaction :=
  { version := 1
    hash := h
    fromAddr := f
    toAddr := t
    amount := amount
    fee := fee
    nonce := nonce
    timestamp := 0
    signature := hm0.strDigest (h ++ "pk")
    publicKey := "pk"
    status := "pending"
    blockHash := "" }

/-- First of two admissible transactions that jointly overdraw the
genesis account. -/
def txA : Transaction := mkTx "h1" "genesis_address" "A" 600000 0 1

/-- Second of two admissible transactions that jointly overdraw the
genesis account. -/
def txB : Transaction := mkTx "h2" "genesis_address" "A" 600000 0 2

/-- Block at height 1 containing both overdrawing transactions; it
passes every check of IsValidBlock at difficulty 0. -/
def blkBoth : Block :=
  { version := 1
    index := 1
    timestamp := 0
    prevHash := g0.hash
    merkleRoot := ""
    transactions := [txA, txB]
    nonce := 0
    difficulty := 0
    hash := "bh"
    miner := "M"
    blockReward := 50 }

/-- Transaction carrying a positive fee, for the conservation law. -/
def txFee : Transaction := mkTx "h3" "genesis_address" "A" 100 1 3

/-- Block at height 1 containing the fee-paying transaction. -/
def blkFee : Block :=
  { version := 1
    index := 1
    timestamp := 0
    prevHash := g0.hash
    merkleRoot := ""
    transactions := [txFee]
    nonce := 0
    difficulty := 0
    hash := "bh"
    miner := "M"
    blockReward := 50 }

/-- Empty block at height 1, valid on the fresh chain. -/
def blkEmpty : Block :=
  let base : Block :=
    { version := 1
      index := 1
      timestamp := 0
      prevHash := g0.hash
      merkleRoot := ""
      transactions := []
      nonce := 0
      difficulty := 0
      hash := ""
      miner := "M"
      blockReward := 50 }
  { base with hash := base.CalculateHash hm0 }

/-- Two-block chain state that IsChainValid accepts. -/
def bcTwo : BC :=
  { chain := [g0, blkEmpty]
    pendingTx := []
    difficulty := 0
    blockReward := 50
    accounts := fun _ => 0
    transactionPool := [] }

/-- The same chain with the prevHash of the genesis block altered. -/
def bcTwoTampered : BC :=
  { bcTwo with chain := [{ g0 with prevHash := "ALTERED" }, blkEmpty] }

/-- Connected peer playing the origin of a newBlock message. -/
def pA : NPeer := { id := "pA", address := "addr1", connected := true }

/-- Second connected peer. -/
def pB : NPeer := { id := "pB", address := "addr2", connected := true }

/-- Node with two connected peers and the fresh chain. -/
def node0 : NodeSt := { peers := [pA, pB], bc := st0 }

/-- Zero-amount transaction used to exercise admission rejection. -/
def txZero : Transaction := mkTx "hz" "genesis_address" "A" 0 0 9

/-- Self-transfer used to exercise admission rejection. -/
def txSelf : Transaction := mkTx "hs" "genesis_address" "genesis_address" 5 0 9

/-- Helper facts about intrinsic validity. -/
theorem isValid_amount_pos {hm : HashModel} {tx : Transaction}
    (h : tx.IsValid hm = true) : 0 < tx.amount := by
  unfold Transaction.IsValid at h
  split_ifs at h with h1
  · omega

theorem isValid_addr_ne {hm : HashModel} {tx : Transaction}
    (h : tx.IsValid hm = true) : tx.fromAddr ≠ tx.toAddr := by
  unfold Transaction.IsValid at h
  split_ifs at h with h1 h2
  · exact h2

/-- Characterization of a successful admission. -/
theorem addTransaction_ok_iff (hm : HashModel) (bc : BC) (tx : Transaction) :
    (AddTransaction hm bc tx).2 = none ↔
      (tx.IsValid hm = true ∧ ¬ bc.accounts tx.fromAddr < tx.amount + tx.fee) := by
  unfold AddTransaction
  split_ifs with h1 h2 <;> simp_all

/-- Shape of the state returned by admission. -/
theorem addTransaction_fst (hm : HashModel) (bc : BC) (tx : Transaction) :
    (AddTransaction hm bc tx).1 = bc
    ∨ ((AddTransaction hm bc tx).2 = none
        ∧ (AddTransaction hm bc tx).1
            = { bc with transactionPool := bc.transactionPool ++ [tx] }) := by
  unfold AddTransaction
  split_ifs <;> simp

/-- Admission never changes the chain or the accounts. -/
theorem addTransaction_chain_accounts (hm : HashModel) (bc : BC) (tx : Transaction) :
    (AddTransaction hm bc tx).1.chain = bc.chain
    ∧ (AddTransaction hm bc tx).1.accounts = bc.accounts
    ∧ (AddTransaction hm bc tx).1.difficulty = bc.difficulty
    ∧ (AddTransaction hm bc tx).1.blockReward = bc.blockReward := by
  unfold AddTransaction
  split_ifs <;> simp

/-- C7: the transaction hash is a deterministic digest over exactly the
seven fields version, from, to, amount, fee, nonce and timestamp; two
transactions agreeing on them hash identically whatever their signature,
public key, status or block hash fields are. -/
theorem txHash_determined_by_seven_fields (hm : HashModel) (t1 t2 : Transaction)
    (hv : t1.version = t2.version) (hf : t1.fromAddr = t2.fromAddr)
    (ht : t1.toAddr = t2.toAddr) (ha : t1.amount = t2.amount)
    (hfe : t1.fee = t2.fee) (hn : t1.nonce = t2.nonce)
    (hts : t1.timestamp = t2.timestamp) :
    Transaction.CalculateHash hm t1 = Transaction.CalculateHash hm t2 := by
  unfold Transaction.CalculateHash txHashData
  rw [hv, hf, ht, ha, hfe, hn, hts]

/-- Witness for C7: attaching a signature, a public key, a status and a
block hash leaves the transaction hash unchanged. -/
theorem txHash_determined_by_seven_fields_witness :
    Transaction.CalculateHash hm0 txA
      = Transaction.CalculateHash hm0
          { txA with signature := "other", publicKey := "pk2",
                     status := "confirmed", blockHash := "bb" } :=
  txHash_determined_by_seven_fields hm0 _ _ rfl rfl rfl rfl rfl rfl rfl

/-- C6: admission rejects exactly on intrinsic invalidity or on a
committed balance below amount plus fee; a zero amount or equal sender
and recipient always reject; rejection leaves the state unchanged, and
success appends the transaction to the pool and touches nothing else. -/
theorem addTransaction_spec (hm : HashModel) (bc : BC) (tx : Transaction) :
    ((AddTransaction hm bc tx).2.isSome ↔
      (tx.IsValid hm = false ∨ bc.accounts tx.fromAddr < tx.amount + tx.fee))
    ∧ (tx.amount = 0 → (AddTransaction hm bc tx).2.isSome)
    ∧ (tx.fromAddr = tx.toAddr → (AddTransaction hm bc tx).2.isSome)
    ∧ ((AddTransaction hm bc tx).2.isSome → (AddTransaction hm bc tx).1 = bc)
    ∧ ((AddTransaction hm bc tx).2 = none →
        (AddTransaction hm bc tx).1
          = { bc with transactionPool := bc.transactionPool ++ [tx] }) := by
  refine ⟨?_, ?_, ?_, ?_, ?_⟩
  · unfold AddTransaction
    split_ifs with h1 h2 <;> simp_all
  · intro h0
    have hva : tx.IsValid hm = false := by
      cases hva : tx.IsValid hm
      · rfl
      · exact absurd (isValid_amount_pos hva) (by omega)
    unfold AddTransaction
    simp [hva]
  · intro hft
    have hva : tx.IsValid hm = false := by
      cases hva : tx.IsValid hm
      · rfl
      · exact absurd hft (isValid_addr_ne hva)
    unfold AddTransaction
    simp [hva]
  · unfold AddTransaction
    split_ifs <;> simp
  · unfold AddTransaction
    split_ifs <;> simp

/-- Witness for C6: on the fresh chain a zero-amount transaction and a
self-transfer are rejected, a rejection leaves the state unchanged, and
an admissible transaction lands in the pool. -/
theorem addTransaction_spec_witness :
    (AddTransaction hm0 st0 txZero).2.isSome
    ∧ (AddTransaction hm0 st0 txSelf).2.isSome
    ∧ (AddTransaction hm0 st0 txZero).1 = st0
    ∧ (AddTransaction hm0 st0 txA).1
        = { st0 with transactionPool := st0.transactionPool ++ [txA] } := by
  have h1 := (addTransaction_spec hm0 st0 txZero).2.1 (by decide)
  have h2 := (addTransaction_spec hm0 st0 txSelf).2.2.1 (by decide)
  have h3 := (addTransaction_spec hm0 st0 txZero).2.2.2.1 h1
  have h4 := (addTransaction_spec hm0 st0 txA).2.2.2.2 (by decide)
  exact ⟨h1, h2, h3, h4⟩

/-- C9: a transaction that was just admitted is admitted again
unchanged, the pool then holds two copies, and only the separate
validator duplicate check would have flagged it. -/
theorem admission_has_no_duplicate_check (hm : HashModel) (bc : BC) (tx : Transaction)
    (h : (AddTransaction hm bc tx).2 = none) :
    (AddTransaction hm (AddTransaction hm bc tx).1 tx).2 = none
    ∧ (AddTransaction hm (AddTransaction hm bc tx).1 tx).1.transactionPool
        = bc.transactionPool ++ [tx, tx]
    ∧ isDuplicateTransaction (AddTransaction hm bc tx).1 tx = true := by
  obtain ⟨hva, hbal⟩ := (addTransaction_ok_iff hm bc tx).1 h
  have hfst : (AddTransaction hm bc tx).1
      = { bc with transactionPool := bc.transactionPool ++ [tx] } := by
    unfold AddTransaction
    simp [hva, hbal]
  refine ⟨?_, ?_, ?_⟩
  · rw [hfst]
    exact (addTransaction_ok_iff hm _ tx).2 ⟨hva, hbal⟩
  · rw [hfst]
    unfold AddTransaction
    simp [hva, hbal]
  · rw [hfst]
    unfold isDuplicateTransaction
    simp

/-- Witness for C9: admitting the same concrete transaction twice on the
fresh chain yields a pool with two copies. -/
theorem admission_has_no_duplicate_check_witness :
    (AddTransaction hm0 (AddTransaction hm0 st0 txA).1 txA).2 = none
    ∧ (AddTransaction hm0 (AddTransaction hm0 st0 txA).1 txA).1.transactionPool
        = st0.transactionPool ++ [txA, txA]
    ∧ isDuplicateTransaction (AddTransaction hm0 st0 txA).1 txA = true :=
  admission_has_no_duplicate_check hm0 st0 txA (by decide)

/-- Success analysis of the mining loop: the returned nonce is in the
searched window, its hash is the recomputed block hash and satisfies the
difficulty, and every earlier nonce of the window fails. -/
theorem mineAux_eq_some {hm : HashModel} {b : Block} {d : Nat} {fuel start n : Nat}
    {h : String} (he : mineAux hm b d fuel start = some (n, h)) :
    start ≤ n ∧ n < start + fuel
    ∧ h = Block.CalculateHash hm { b with nonce := n }
    ∧ IsValidHash d h = true
    ∧ ∀ m, start ≤ m → m < n →
        IsValidHash d (Block.CalculateHash hm { b with nonce := m }) = false := by
  induction fuel generalizing start with
  | zero => simp [mineAux] at he
  | succ f ih =>
    rw [mineAux] at he
    by_cases hv : IsValidHash d (Block.CalculateHash hm { b with nonce := start }) = true
    · simp only [hv, if_true] at he
      obtain ⟨rfl, rfl⟩ := by simpa using he
      refine ⟨le_refl _, by omega, rfl, hv, ?_⟩
      intro m hm1 hm2
      omega
    · simp only [hv, if_false] at he
      obtain ⟨h1, h2, h3, h4, h5⟩ := ih he
      refine ⟨by omega, by omega, h3, h4, ?_⟩
      intro m hm1 hm2
      rcases Nat.eq_or_lt_of_le hm1 with hms | hms
      · subst hms
        exact Bool.eq_false_iff.2 hv
      · exact h5 m hms hm2

/-- Failure analysis of the mining loop: every nonce of the searched
window fails the difficulty. -/
theorem mineAux_eq_none {hm : HashModel} {b : Block} {d : Nat} {fuel start : Nat}
    (he : mineAux hm b d fuel start = none) :
    ∀ m, start ≤ m → m < start + fuel →
      IsValidHash d (Block.CalculateHash hm { b with nonce := m }) = false := by
  induction fuel generalizing start with
  | zero =>
    intro m hm1 hm2
    omega
  | succ f ih =>
    rw [mineAux] at he
    by_cases hv : IsValidHash d (Block.CalculateHash hm { b with nonce := start }) = true
    · simp [hv] at he
    · simp only [hv, if_false] at he
      intro m hm1 hm2
      rcases Nat.eq_or_lt_of_le hm1 with hms | hms
      · subst hms
        exact Bool.eq_false_iff.2 hv
      · exact ih he m hms (by omega)

/-- C5: Mine searches nonces upward from 0 and, when it succeeds, yields
the least nonce below the 100000000 ceiling whose recomputed block hash
meets the difficulty, together with that hash, and the mined block
passes Validate; when it fails, no nonce below the ceiling works. -/
theorem mine_spec (hm : HashModel) (b : Block) (d : Nat) :
    (∀ n h, Mine hm b d = some (n, h) →
        n < MaxNonce
        ∧ h = Block.CalculateHash hm { b with nonce := n }
        ∧ IsValidHash d h = true
        ∧ (∀ m, m < n →
            IsValidHash d (Block.CalculateHash hm { b with nonce := m }) = false)
        ∧ Validate hm { b with nonce := n, hash := h } d = true)
    ∧ (Mine hm b d = none →
        ∀ m, m < MaxNonce →
          IsValidHash d (Block.CalculateHash hm { b with nonce := m }) = false) := by
  constructor
  · intro n h he
    obtain ⟨h1, h2, h3, h4, h5⟩ := mineAux_eq_some he
    have hval : Validate hm { b with nonce := n, hash := h } d = true := by
      have hsame : Block.CalculateHash hm { b with nonce := n, hash := h }
          = Block.CalculateHash hm { b with nonce := n } := rfl
      unfold Validate
      rw [hsame, ← h3]
      exact h4
    exact ⟨by omega, h3, h4, fun m hmlt => h5 m (Nat.zero_le m) hmlt, hval⟩
  · intro he m hmlt
    exact mineAux_eq_none he m (Nat.zero_le m) (by omega)

/-- Witness for C5: under a hash model whose digests meet difficulty 1
first at nonce 2, Mine returns nonce 2 with its hash, nonces 0 and 1
fail, and the mined block validates. -/
theorem mine_spec_witness :
    Mine hm1 blkEmpty 1 = some (2, "0w")
    ∧ (2 < MaxNonce
        ∧ "0w" = Block.CalculateHash hm1 { blkEmpty with nonce := 2 }
        ∧ IsValidHash 1 "0w" = true
        ∧ (∀ m, m < 2 →
            IsValidHash 1 (Block.CalculateHash hm1 { blkEmpty with nonce := m }) = false)
        ∧ Validate hm1 { blkEmpty with nonce := 2, hash := "0w" } 1 = true) :=
  ⟨by decide, (mine_spec hm1 blkEmpty 1).1 2 "0w" (by decide)⟩

/-- Effect of one processed transaction on one balance: the sender loses
amount plus fee, the recipient gains amount. -/
theorem processTransaction_apply (acc : String → Int) (tx : Transaction) (a : String) :
    processTransaction acc tx a
      = acc a - (if a = tx.fromAddr then tx.amount + tx.fee else 0)
            + (if a = tx.toAddr then tx.amount else 0) := by
  unfold processTransaction updAcc
  by_cases h1 : a = tx.toAddr <;> by_cases h2 : a = tx.fromAddr <;>
    by_cases h3 : tx.toAddr = tx.fromAddr <;> simp_all

/-- Effect of processing a whole list of transactions on one balance. -/
theorem foldl_processTransaction_apply (txs : List Transaction) (acc : String → Int)
    (a : String) :
    (txs.foldl processTransaction acc) a
      = acc a
        - ((txs.filter (fun tx => a == tx.fromAddr)).map (fun tx => tx.amount + tx.fee)).sum
        + ((txs.filter (fun tx => a == tx.toAddr)).map Transaction.amount).sum := by
  induction txs generalizing acc with
  | nil => simp
  | cons tx rest ih =>
    rw [List.foldl_cons, ih, processTransaction_apply]
    rcases eq_or_ne a tx.fromAddr with h1 | h1 <;> rcases eq_or_ne a tx.toAddr with h2 | h2
    · have h3 : tx.fromAddr = tx.toAddr := h1.symm.trans h2
      subst h1
      simp [List.filter_cons, h3]
      omega
    · have h3 : tx.fromAddr ≠ tx.toAddr := fun hc => h2 (h1.trans hc)
      subst h1
      simp [List.filter_cons, h3]
      omega
    · have h3 : tx.toAddr ≠ tx.fromAddr := fun hc => h1 (h2.trans hc)
      subst h2
      simp [List.filter_cons, h3]
      omega
    · simp [List.filter_cons, h1, h2]

/-- The pool filter of the source equals a membership filter on the
hashes of the processed transactions. -/
theorem removeProcessed_eq (pool processed : List Transaction) :
    removeProcessedTransactions pool processed
      = pool.filter (fun tx => ! (processed.map Transaction.hash).contains tx.hash) := by
  unfold removeProcessedTransactions
  apply List.filter_congr
  intro tx _
  have key : ∀ l : List Transaction,
      l.any (fun p => p.hash == tx.hash) = (l.map Transaction.hash).contains tx.hash := by
    intro l
    induction l with
    | nil => rfl
    | cons p ps ih =>
      rw [List.map_cons, List.any_cons, List.contains_cons, ih]
      by_cases hp : p.hash = tx.hash
      · simp [hp]
      · rw [beq_false_of_ne hp, beq_false_of_ne (Ne.symm hp)]
  rw [key]

/-- Characterization of block validation, given the chain tip. -/
theorem isValidBlock_iff (hm : HashModel) (bc : BC) (b : Block) (tip : Block)
    (htip : bc.chain.getLast? = some tip) :
    IsValidBlock hm bc b = true ↔
      (b.index = bc.chain.length ∧ b.prevHash = tip.hash
        ∧ Validate hm b bc.difficulty = true
        ∧ ∀ tx ∈ b.transactions, tx.IsValid hm = true) := by
  unfold IsValidBlock
  rw [htip]
  split_ifs with h1 h2 <;> simp_all [List.all_eq_true]

/-- Shape of the state after a successful block commit. -/
theorem addBlock_ok_fst (hm : HashModel) (bc : BC) (b : Block)
    (hv : IsValidBlock hm bc b = true) :
    (AddBlock hm bc b).2 = none
    ∧ (AddBlock hm bc b).1
        = { bc with
              accounts :=
                updAcc (b.transactions.foldl processTransaction bc.accounts) b.miner
                  ((b.transactions.foldl processTransaction bc.accounts) b.miner
                    + b.blockReward)
              chain := bc.chain ++ [b]
              transactionPool :=
                removeProcessedTransactions bc.transactionPool b.transactions } := by
  unfold AddBlock
  simp [hv]

/-- A rejected block leaves the state untouched. -/
theorem addBlock_rejected_fst (hm : HashModel) (bc : BC) (b : Block)
    (hv : IsValidBlock hm bc b = false) :
    (AddBlock hm bc b).2 = some "invalid block" ∧ (AddBlock hm bc b).1 = bc := by
  unfold AddBlock
  simp [hv]

/-- C3: block submission rejects, leaving the whole state unchanged,
exactly when the index is not the height, the prevHash is not the tip
hash, the proof of work fails, or some contained transaction is invalid;
on success it applies the per-address debits and credits, pays the miner
the block reward, appends the block and filters the pool by hash. -/
theorem addBlock_spec (hm : HashModel) (bc : BC) (b : Block) (tip : Block)
    (htip : bc.chain.getLast? = some tip) :
    ((AddBlock hm bc b).2.isSome ↔
        (b.index ≠ bc.chain.length ∨ b.prevHash ≠ tip.hash
          ∨ Validate hm b bc.difficulty = false
          ∨ ∃ tx ∈ b.transactions, tx.IsValid hm = false))
    ∧ ((AddBlock hm bc b).2.isSome → (AddBlock hm bc b).1 = bc)
    ∧ ((AddBlock hm bc b).2 = none →
        (AddBlock hm bc b).1.chain = bc.chain ++ [b]
        ∧ (AddBlock hm bc b).1.transactionPool
            = bc.transactionPool.filter
                (fun tx => ! (b.transactions.map Transaction.hash).contains tx.hash)
        ∧ (AddBlock hm bc b).1.pendingTx = bc.pendingTx
        ∧ (AddBlock hm bc b).1.difficulty = bc.difficulty
        ∧ (AddBlock hm bc b).1.blockReward = bc.blockReward
        ∧ ∀ a, (AddBlock hm bc b).1.accounts a
            = bc.accounts a
              - ((b.transactions.filter (fun tx => a == tx.fromAddr)).map
                  (fun tx => tx.amount + tx.fee)).sum
              + ((b.transactions.filter (fun tx => a == tx.toAddr)).map
                  Transaction.amount).sum
              + (if a = b.miner then b.blockReward else 0)) := by
  have key : (AddBlock hm bc b).2.isSome ↔ ¬ (IsValidBlock hm bc b = true) := by
    unfold AddBlock
    split_ifs with h <;> simp [h]
  refine ⟨?_, ?_, ?_⟩
  · rw [key, isValidBlock_iff hm bc b tip htip]
    have e3 : (Validate hm b bc.difficulty = false)
        ↔ ¬ (Validate hm b bc.difficulty = true) := by simp
    have e4 : (∃ tx ∈ b.transactions, tx.IsValid hm = false)
        ↔ ¬ (∀ tx ∈ b.transactions, tx.IsValid hm = true) := by
      simp [Bool.not_eq_true]
    rw [e3, e4]
    tauto
  · intro hs
    have hv : IsValidBlock hm bc b = false := by
      cases hvv : IsValidBlock hm bc b
      · rfl
      · rw [(addBlock_ok_fst hm bc b hvv).1] at hs
        simp at hs
    exact (addBlock_rejected_fst hm bc b hv).2
  · intro hnone
    have hv : IsValidBlock hm bc b = true := by
      cases hvv : IsValidBlock hm bc b
      · rw [(addBlock_rejected_fst hm bc b hvv).1] at hnone
        simp at hnone
      · rfl
    obtain ⟨-, hfst⟩ := addBlock_ok_fst hm bc b hv
    rw [hfst, removeProcessed_eq]
    refine ⟨rfl, rfl, rfl, rfl, rfl, ?_⟩
    intro a
    show updAcc (b.transactions.foldl processTransaction bc.accounts) b.miner
        ((b.transactions.foldl processTransaction bc.accounts) b.miner + b.blockReward) a = _
    unfold updAcc
    by_cases hma : a = b.miner <;> simp [hma, foldl_processTransaction_apply]

/-- Witness for C3: on the fresh chain the empty block at height 1
commits, extends the chain, and pays the miner the block reward. -/
theorem addBlock_spec_witness :
    (AddBlock hm0 st0 blkEmpty).2 = none
    ∧ (AddBlock hm0 st0 blkEmpty).1.chain = st0.chain ++ [blkEmpty]
    ∧ (AddBlock hm0 st0 blkEmpty).1.accounts "M" = 50
    ∧ (AddBlock hm0 st0 blkEmpty).2.isSome = false := by
  have h := addBlock_spec hm0 st0 blkEmpty g0 rfl
  have hnone : (AddBlock hm0 st0 blkEmpty).2 = none := by decide
  have hacc := (h.2.2 hnone).2.2.2.2.2 "M"
  refine ⟨hnone, (h.2.2 hnone).1, ?_, by rw [hnone]; rfl⟩
  rw [hacc]
  decide

/-- One chain validation step, unfolded into its three checks. -/
theorem chainStepOk_iff (hm : HashModel) (d : Nat) (prev cur : Block) :
    chainStepOk hm d prev cur = true ↔
      (cur.hash = cur.CalculateHash hm ∧ cur.prevHash = prev.hash
        ∧ Validate hm cur d = true) := by
  unfold chainStepOk
  simp [Bool.and_assoc]

/-- Pairwise characterization of the chain validation loop. -/
theorem isChainValidFrom_iff (hm : HashModel) (d : Nat) (g : Block) (rest : List Block) :
    isChainValidFrom hm d g rest = true ↔
      ∀ i prev cur, (g :: rest)[i]? = some prev → (g :: rest)[i + 1]? = some cur →
        chainStepOk hm d prev cur = true := by
  induction rest generalizing g with
  | nil =>
    simp only [isChainValidFrom, true_iff]
    intro i prev cur hp hc
    rcases i with _ | i
    · simp at hc
    · simp at hp
  | cons b rest ih =>
    rw [isChainValidFrom, Bool.and_eq_true, ih]
    constructor
    · rintro ⟨hgb, hrest⟩ i prev cur hp hc
      rcases i with _ | i
      · rw [List.getElem?_cons_zero] at hp
        rw [List.getElem?_cons_succ, List.getElem?_cons_zero] at hc
        cases hp
        cases hc
        exact hgb
      · rw [List.getElem?_cons_succ] at hp hc
        exact hrest i prev cur hp hc
    · intro h
      refine ⟨h 0 g b (by simp) (by simp), fun i prev cur hp hc => h (i + 1) prev cur ?_ ?_⟩
      · rw [List.getElem?_cons_succ]
        exact hp
      · rw [List.getElem?_cons_succ]
        exact hc

/-- Chain validation holds exactly when every consecutive pair of blocks
from index 1 upward passes the three checks. -/
theorem isChainValid_iff_pairs (hm : HashModel) (bc : BC) :
    IsChainValid hm bc = true ↔
      ∀ i prev cur, bc.chain[i]? = some prev → bc.chain[i + 1]? = some cur →
        (cur.hash = cur.CalculateHash hm ∧ cur.prevHash = prev.hash
          ∧ Validate hm cur bc.difficulty = true) := by
  rcases hch : bc.chain with _ | ⟨g, rest⟩
  · unfold IsChainValid
    rw [hch]
    simp only [true_iff]
    intro i prev cur hp
    simp at hp
  · unfold IsChainValid
    rw [hch, isChainValidFrom_iff]
    constructor
    · intro h i prev cur hp hc
      exact (chainStepOk_iff hm bc.difficulty prev cur).1 (h i prev cur hp hc)
    · intro h i prev cur hp hc
      exact (chainStepOk_iff hm bc.difficulty prev cur).2 (h i prev cur hp hc)

/-- C4 (amended): the chain validation walks every consecutive pair from
index 1, checking stored-hash equality, linkage and proof of work, so it
accepts exactly the chains whose non-genesis blocks pass all three, and
altering the prevHash of any block at index 1 or higher of an accepted
chain makes it reject. The genesis block itself is not inspected. -/
theorem isChainValid_spec (hm : HashModel) (bc : BC) :
    (IsChainValid hm bc = true ↔
      ∀ i prev cur, bc.chain[i]? = some prev → bc.chain[i + 1]? = some cur →
        (cur.hash = cur.CalculateHash hm ∧ cur.prevHash = prev.hash
          ∧ Validate hm cur bc.difficulty = true))
    ∧ (∀ i cur p, bc.chain[i]? = some cur → 1 ≤ i → IsChainValid hm bc = true →
        p ≠ cur.prevHash →
        IsChainValid hm { bc with chain := bc.chain.set i { cur with prevHash := p } }
          = false) := by
  refine ⟨isChainValid_iff_pairs hm bc, ?_⟩
  intro i cur p hcur hi hvalid hne
  rcases i with _ | j
  · omega
  have hjlt : j + 1 < bc.chain.length := (List.getElem?_eq_some_iff.1 hcur).1
  have hprev : ∃ prevB, bc.chain[j]? = some prevB := by
    have : j < bc.chain.length := by omega
    exact ⟨bc.chain[j], List.getElem?_eq_some_iff.2 ⟨this, rfl⟩⟩
  obtain ⟨prevB, hprevB⟩ := hprev
  have hlink : cur.prevHash = prevB.hash :=
    ((isChainValid_iff_pairs hm bc).1 hvalid j prevB cur hprevB hcur).2.1
  cases hT : IsChainValid hm
      { bc with chain := bc.chain.set (j + 1) { cur with prevHash := p } }
  · rfl
  · exfalso
    have hpairs := (isChainValid_iff_pairs hm _).1 hT
    have hp1 : (bc.chain.set (j + 1) { cur with prevHash := p })[j]? = some prevB := by
      rw [List.getElem?_set_ne (by omega)]
      exact hprevB
    have hp2 : (bc.chain.set (j + 1) { cur with prevHash := p })[j + 1]?
        = some { cur with prevHash := p } := List.getElem?_set_self hjlt
    have hnew := (hpairs j prevB { cur with prevHash := p } hp1 hp2).2.1
    simp at hnew
    exact hne (hnew.trans hlink.symm)

/-- Counterexample for C4 as stated: a two-block chain accepted by the
validation keeps being accepted after the prevHash of its genesis block
is altered, because the loop never inspects the genesis block. -/
theorem isChainValid_misses_genesis_tamper :
    IsChainValid hm0 bcTwo = true
    ∧ bcTwoTampered.chain = [{ g0 with prevHash := "ALTERED" }, blkEmpty]
    ∧ "ALTERED" ≠ g0.prevHash
    ∧ IsChainValid hm0 bcTwoTampered = true := by
  decide

/-- Witness for C4: tampering with the prevHash of the block at index 1
of the accepted two-block chain makes validation reject. -/
theorem isChainValid_spec_witness :
    IsChainValid hm0
      { bcTwo with chain := bcTwo.chain.set 1 { blkEmpty with prevHash := "X" } } = false :=
  (isChainValid_spec hm0 bcTwo).2 1 blkEmpty "X" (by decide) (by omega) (by decide) (by decide)

/-- Reachable states always have a nonempty chain. -/
theorem reachable_chain_ne_nil {hm : HashModel} {bc : BC} (h : Reachable hm bc) :
    bc.chain ≠ [] := by
  induction h with
  | genesis d r ts => simp [NewBlockchain]
  | admitTx tx hprev ih =>
    rw [(addTransaction_chain_accounts _ _ _).1]
    exact ih
  | commitBlock b hprev ih =>
    cases hv : IsValidBlock _ _ b
    · rw [(addBlock_rejected_fst _ _ _ hv).2]
      exact ih
    · rw [(addBlock_ok_fst _ _ _ hv).2]
      simp

/-- Sums of balances over an address list. -/
theorem listSum_cons (x : String) (S : List String) (f : String → Int) :
    listSum (x :: S) f = f x + listSum S f := by
  simp [listSum]

theorem listSum_congr {S : List String} {f g : String → Int}
    (h : ∀ x ∈ S, f x = g x) : listSum S f = listSum S g := by
  unfold listSum
  rw [List.map_congr_left h]

theorem listSum_zero (S : List String) : listSum S (fun _ => 0) = 0 := by
  induction S <;> simp_all [listSum]

theorem listSum_updAcc {S : List String} (f : String → Int) {a : String} (v : Int)
    (hnd : S.Nodup) (ha : a ∈ S) :
    listSum S (updAcc f a v) = listSum S f - f a + v := by
  induction S with
  | nil => cases ha
  | cons x T ih =>
    rw [List.nodup_cons] at hnd
    rcases List.mem_cons.1 ha with rfl | haT
    · rw [listSum_cons, listSum_cons]
      have hupd : listSum T (updAcc f a v) = listSum T f := by
        apply listSum_congr
        intro y hy
        unfold updAcc
        rw [if_neg]
        intro hya
        exact hnd.1 (hya ▸ hy)
      have hx : updAcc f a v a = v := by
        unfold updAcc
        rw [if_pos rfl]
      rw [hx, hupd]
      ring
    · rw [listSum_cons, listSum_cons, ih hnd.2 haT]
      have hx : updAcc f a v x = f x := by
        unfold updAcc
        rw [if_neg]
        intro hxa
        exact hnd.1 (hxa ▸ haT)
      rw [hx]
      ring

/-- Processing one transaction removes exactly its fee from the total of
any duplicate-free address list containing sender and recipient. -/
theorem listSum_processTransaction {S : List String} (acc : String → Int)
    (tx : Transaction) (hnd : S.Nodup) (hf : tx.fromAddr ∈ S) (ht : tx.toAddr ∈ S) :
    listSum S (processTransaction acc tx) = listSum S acc - tx.fee := by
  unfold processTransaction
  rw [listSum_updAcc _ _ hnd ht, listSum_updAcc _ _ hnd hf]
  ring

/-- Processing a transaction list removes exactly the total fees. -/
theorem listSum_foldl_process {S : List String} (txs : List Transaction)
    (acc : String → Int) (hnd : S.Nodup)
    (hmem : ∀ tx ∈ txs, tx.fromAddr ∈ S ∧ tx.toAddr ∈ S) :
    listSum S (txs.foldl processTransaction acc)
      = listSum S acc - (txs.map Transaction.fee).sum := by
  induction txs generalizing acc with
  | nil => simp
  | cons tx rest ih =>
    rw [List.foldl_cons,
        ih _ (fun t htm => hmem t (List.mem_cons_of_mem _ htm)),
        listSum_processTransaction acc tx hnd (hmem tx (List.mem_cons_self _ _)).1
          (hmem tx (List.mem_cons_self _ _)).2]
    simp
    ring

/-- Membership facts for the touched-address bookkeeping. -/
theorem mem_txAddrsList {txs : List Transaction} {tx : Transaction} (h : tx ∈ txs) :
    tx.fromAddr ∈ txAddrsList txs ∧ tx.toAddr ∈ txAddrsList txs := by
  induction txs with
  | nil => cases h
  | cons t rest ih =>
    rcases List.mem_cons.1 h with rfl | hmem
    · exact ⟨List.mem_cons_self _ _, List.mem_cons_of_mem _ (List.mem_cons_self _ _)⟩
    · obtain ⟨h1, h2⟩ := ih hmem
      exact ⟨List.mem_cons_of_mem _ (List.mem_cons_of_mem _ h1),
             List.mem_cons_of_mem _ (List.mem_cons_of_mem _ h2)⟩

theorem chainAddrs_append (c1 c2 : List Block) :
    chainAddrs (c1 ++ c2) = chainAddrs c1 ++ chainAddrs c2 := by
  induction c1 with
  | nil => rfl
  | cons b rest ih =>
    show blockAddrs b ++ chainAddrs (rest ++ c2)
        = (blockAddrs b ++ chainAddrs rest) ++ chainAddrs c2
    rw [ih, List.append_assoc]

/-- The counting quantities depend only on the chain. -/
theorem rewardsSum_of_chain_eq {s1 s2 : BC} (h : s1.chain = s2.chain) :
    rewardsSum s1 = rewardsSum s2 := by
  unfold rewardsSum minedBlocks
  rw [h]

theorem feesSum_of_chain_eq {s1 s2 : BC} (h : s1.chain = s2.chain) :
    feesSum s1 = feesSum s2 := by
  unfold feesSum minedBlocks
  rw [h]

theorem touchedAddrs_of_chain_eq {s1 s2 : BC} (h : s1.chain = s2.chain) :
    touchedAddrs s1 = touchedAddrs s2 := by
  unfold touchedAddrs
  rw [h]

/-- Touched addresses of a state whose chain extends another by one
block. -/
theorem touchedAddrs_append_block (bc st2 : BC) (b : Block)
    (h : st2.chain = bc.chain ++ [b]) :
    touchedAddrs st2 = "genesis_address" :: (chainAddrs bc.chain ++ blockAddrs b) := by
  unfold touchedAddrs
  rw [h, chainAddrs_append]
  simp [chainAddrs]

/-- The mined-block list of a state whose chain extends a state with a
nonempty chain by one block. -/
theorem minedBlocks_append (bc st2 : BC) (b : Block)
    (h : st2.chain = bc.chain ++ [b]) (hne : bc.chain ≠ []) :
    minedBlocks st2 = minedBlocks bc ++ [b] := by
  unfold minedBlocks
  rw [h, List.drop_append_of_le_length (List.length_pos.2 hne)]

/-- Balances of addresses untouched by a transaction list are
unchanged. -/
theorem foldl_process_not_touched (txs : List Transaction) (acc : String → Int)
    (a : String) (h : ∀ tx ∈ txs, tx.fromAddr ≠ a ∧ tx.toAddr ≠ a) :
    (txs.foldl processTransaction acc) a = acc a := by
  rw [foldl_processTransaction_apply]
  have h1 : txs.filter (fun tx => a == tx.fromAddr) = [] := by
    apply List.filter_eq_nil_iff.2
    intro tx htx
    simp only [beq_iff_eq]
    exact fun hc => (h tx htx).1 hc.symm
  have h2 : txs.filter (fun tx => a == tx.toAddr) = [] := by
    apply List.filter_eq_nil_iff.2
    intro tx htx
    simp only [beq_iff_eq]
    exact fun hc => (h tx htx).2 hc.symm
  rw [h1, h2]
  simp

/-- C2 (amended): in every reachable state, the total of the balances of
any duplicate-free address list covering every touched address equals
the genesis allocation of 1000000, plus the block rewards of the blocks
committed after genesis, minus the fees of their transactions. The fees
are destroyed by the implementation, not credited to the miner. -/
theorem conservation_with_fees (hm : HashModel) (bc : BC) (hr : Reachable hm bc)
    (S : List String) (hnd : S.Nodup) (hsub : ∀ a ∈ touchedAddrs bc, a ∈ S) :
    listSum S bc.accounts = 1000000 + rewardsSum bc - feesSum bc := by
  revert hsub
  induction hr with
  | genesis d r ts =>
    intro hsub
    have hg : "genesis_address" ∈ S := hsub _ (List.mem_cons_self _ _)
    show listSum S (updAcc (fun _ => 0) "genesis_address" 1000000) = _
    rw [listSum_updAcc _ _ hnd hg, listSum_zero]
    have h1 : rewardsSum (NewBlockchain hm d r ts) = 0 := by
      simp [rewardsSum, minedBlocks, NewBlockchain]
    have h2 : feesSum (NewBlockchain hm d r ts) = 0 := by
      simp [feesSum, minedBlocks, NewBlockchain]
    rw [h1, h2]
    ring
  | @admitTx bc tx hprev ih =>
    intro hsub
    obtain ⟨hch, hacc, -, -⟩ := addTransaction_chain_accounts hm bc tx
    rw [hacc, rewardsSum_of_chain_eq hch, feesSum_of_chain_eq hch]
    exact ih fun a ha => hsub a (by rw [touchedAddrs_of_chain_eq hch]; exact ha)
  | @commitBlock bc b hprev ih =>
    intro hsub
    cases hv : IsValidBlock hm bc b
    · obtain ⟨-, hfst⟩ := addBlock_rejected_fst hm bc b hv
      rw [hfst] at hsub ⊢
      exact ih hsub
    · obtain ⟨-, hfst⟩ := addBlock_ok_fst hm bc b hv
      have hchain2 : (AddBlock hm bc b).1.chain = bc.chain ++ [b] := by
        rw [hfst]
      have hacc2 : (AddBlock hm bc b).1.accounts
          = updAcc (b.transactions.foldl processTransaction bc.accounts) b.miner
              ((b.transactions.foldl processTransaction bc.accounts) b.miner
                + b.blockReward) := by
        rw [hfst]
      have hne := reachable_chain_ne_nil hprev
      have hmb := minedBlocks_append bc _ b hchain2 hne
      have hrew : rewardsSum (AddBlock hm bc b).1 = rewardsSum bc + b.blockReward := by
        unfold rewardsSum
        rw [hmb]
        simp
      have hfee : feesSum (AddBlock hm bc b).1
          = feesSum bc + (b.transactions.map Transaction.fee).sum := by
        unfold feesSum
        rw [hmb]
        simp
      have htouched := touchedAddrs_append_block bc _ b hchain2
      have hsubOld : ∀ a ∈ touchedAddrs bc, a ∈ S := by
        intro a ha
        apply hsub
        rw [htouched]
        rcases List.mem_cons.1 ha with rfl | ha2
        · exact List.mem_cons_self _ _
        · exact List.mem_cons_of_mem _ (List.mem_append_left _ ha2)
      have hminerS : b.miner ∈ S := by
        apply hsub
        rw [htouched]
        exact List.mem_cons_of_mem _ (List.mem_append_right _ (List.mem_cons_self _ _))
      have htxS : ∀ tx ∈ b.transactions, tx.fromAddr ∈ S ∧ tx.toAddr ∈ S := by
        intro tx htx
        obtain ⟨h1, h2⟩ := mem_txAddrsList htx
        constructor
        · apply hsub
          rw [htouched]
          exact List.mem_cons_of_mem _
            (List.mem_append_right _ (List.mem_cons_of_mem _ h1))
        · apply hsub
          rw [htouched]
          exact List.mem_cons_of_mem _
            (List.mem_append_right _ (List.mem_cons_of_mem _ h2))
      rw [hacc2, listSum_updAcc _ _ hnd hminerS, listSum_foldl_process _ _ hnd htxS,
          ih hsubOld, hrew, hfee]
      ring

/-- Counterexample for C2 as stated: on a reachable state with one
committed block of reward 50 containing a single transaction of fee 1,
the total of all balances is 1000049, not the claimed 1000000 plus one
block reward. The addresses listed cover every touched address, so every
other balance is zero. -/
theorem conservation_claim_false :
    (AddTransaction hm0 st0 txFee).2 = none
    ∧ (AddBlock hm0 (AddTransaction hm0 st0 txFee).1 blkFee).2 = none
    ∧ Reachable hm0 (AddBlock hm0 (AddTransaction hm0 st0 txFee).1 blkFee).1
    ∧ (AddBlock hm0 (AddTransaction hm0 st0 txFee).1 blkFee).1.blockReward = 50
    ∧ blkFee.blockReward = 50
    ∧ minedBlocks (AddBlock hm0 (AddTransaction hm0 st0 txFee).1 blkFee).1 = [blkFee]
    ∧ (["genesis_address", "genesis_miner", "0", "A", "M"] : List String).Nodup
    ∧ (∀ a ∈ touchedAddrs (AddBlock hm0 (AddTransaction hm0 st0 txFee).1 blkFee).1,
        a ∈ ["genesis_address", "genesis_miner", "0", "A", "M"])
    ∧ listSum ["genesis_address", "genesis_miner", "0", "A", "M"]
        (AddBlock hm0 (AddTransaction hm0 st0 txFee).1 blkFee).1.accounts = 1000049
    ∧ (1000049 : Int) ≠ 1000000 + 1 * 50 := by
  refine ⟨by decide, by decide, ?_, by decide, by decide, by decide, by decide, by decide,
    by decide, by decide⟩
  exact Reachable.commitBlock blkFee (Reachable.admitTx txFee (Reachable.genesis 0 50 0))

/-- Witness for the amended C2 at a state with one committed block. -/
theorem conservation_with_fees_witness :
    listSum ["genesis_address", "genesis_miner", "0", "A", "M"]
        (AddBlock hm0 (AddTransaction hm0 st0 txFee).1 blkFee).1.accounts
      = 1000000 + rewardsSum (AddBlock hm0 (AddTransaction hm0 st0 txFee).1 blkFee).1
          - feesSum (AddBlock hm0 (AddTransaction hm0 st0 txFee).1 blkFee).1 :=
  conservation_with_fees hm0 _
    (Reachable.commitBlock blkFee (Reachable.admitTx txFee (Reachable.genesis 0 50 0)))
    _ (by decide) (by decide)

/-- C10: the balance query is a pure total read defaulting to zero: in
every reachable state, an address that never appeared as sender,
recipient or miner of a committed block nor in the genesis allocation
reads as zero. -/
theorem getBalance_untouched_zero (hm : HashModel) (bc : BC) (addr : String)
    (hr : Reachable hm bc) (ha : addr ∉ touchedAddrs bc) :
    GetBalance bc addr = 0 := by
  unfold GetBalance
  revert ha
  induction hr with
  | genesis d r ts =>
    intro ha
    have hga : addr ≠ "genesis_address" := by
      intro hc
      exact ha (hc ▸ List.mem_cons_self _ _)
    show updAcc (fun _ => 0) "genesis_address" 1000000 addr = 0
    unfold updAcc
    rw [if_neg hga]
  | @admitTx bc tx hprev ih =>
    intro ha
    obtain ⟨hch, hacc, -, -⟩ := addTransaction_chain_accounts hm bc tx
    rw [hacc]
    exact ih (by rw [← touchedAddrs_of_chain_eq hch]; exact ha)
  | @commitBlock bc b hprev ih =>
    intro ha
    cases hv : IsValidBlock hm bc b
    · obtain ⟨-, hfst⟩ := addBlock_rejected_fst hm bc b hv
      rw [hfst] at ha ⊢
      exact ih ha
    · obtain ⟨-, hfst⟩ := addBlock_ok_fst hm bc b hv
      have hchain2 : (AddBlock hm bc b).1.chain = bc.chain ++ [b] := by
        rw [hfst]
      have htouched := touchedAddrs_append_block bc _ b hchain2
      rw [htouched] at ha
      simp only [List.mem_cons, List.mem_append, blockAddrs, not_or] at ha
      obtain ⟨hgen, hchainA, hmina, htxa⟩ := ha
      rw [hfst]
      show updAcc (b.transactions.foldl processTransaction bc.accounts) b.miner
          ((b.transactions.foldl processTransaction bc.accounts) b.miner
            + b.blockReward) addr = 0
      unfold updAcc
      rw [if_neg hmina]
      rw [foldl_process_not_touched]
      · apply ih
        intro hc
        rcases List.mem_cons.1 hc with rfl | hc2
        · exact hgen rfl
        · exact hchainA hc2
      · intro tx htx
        obtain ⟨h1, h2⟩ := mem_txAddrsList htx
        constructor
        · intro hc
          exact htxa (hc ▸ h1)
        · intro hc
          exact htxa (hc ▸ h2)

/-- Witness for C10: a never-mentioned address reads as zero on the
fresh chain. -/
theorem getBalance_untouched_zero_witness :
    "nobody" ∉ touchedAddrs st0 ∧ GetBalance st0 "nobody" = 0 :=
  ⟨by decide, getBalance_untouched_zero hm0 st0 "nobody" (Reachable.genesis 0 50 0) (by decide)⟩

/-- C1: the code violates the claim. Both overdrawing transactions are
admitted against the same committed balance, the block containing both
passes every check of AddBlock, and committing it drives the genesis
balance to -200000: no transaction is rejected and a balance goes
negative on a reachable state. -/
theorem negative_balance_reachable :
    (AddTransaction hm0 st0 txA).2 = none
    ∧ (AddTransaction hm0 (AddTransaction hm0 st0 txA).1 txB).2 = none
    ∧ txA.fromAddr = "genesis_address" ∧ txB.fromAddr = "genesis_address"
    ∧ txA.amount + txA.fee + txB.amount + txB.fee = 1200000
    ∧ GetBalance st0 "genesis_address" = 1000000
    ∧ blkBoth.transactions = [txA, txB]
    ∧ (AddBlock hm0 (AddTransaction hm0 (AddTransaction hm0 st0 txA).1 txB).1 blkBoth).2 = none
    ∧ Reachable hm0
        (AddBlock hm0 (AddTransaction hm0 (AddTransaction hm0 st0 txA).1 txB).1 blkBoth).1
    ∧ GetBalance
        (AddBlock hm0 (AddTransaction hm0 (AddTransaction hm0 st0 txA).1 txB).1 blkBoth).1
        "genesis_address" = -200000 := by
  refine ⟨by decide, by decide, by decide, by decide, by decide, by decide, by decide,
    by decide, ?_, by decide⟩
  exact Reachable.commitBlock blkBoth
    (Reachable.admitTx txB (Reachable.admitTx txA (Reachable.genesis 0 50 0)))

/-- C8 (amended): a newBlock message carrying a block that passes
validation is committed and its raw bytes are re-broadcast to every
connected peer of the registry, including the peer it came from, since
the broadcast excludes nobody; an invalid block is neither appended nor
re-broadcast and the state is unchanged. -/
theorem handleNewBlock_spec (hm : HashModel) (n : NodeSt) (origin : NPeer) (block : Block)
    (raw : String) :
    (IsValidBlock hm n.bc block = true →
        (AddBlock hm n.bc block).2 = none
        ∧ handleNewBlock hm n origin block raw
            = ({ n with bc := (AddBlock hm n.bc block).1 },
               (n.peers.filter (fun p => p.connected)).map (fun p => (p.id, raw)))
        ∧ (origin ∈ n.peers → origin.connected = true →
            (origin.id, raw) ∈ (handleNewBlock hm n origin block raw).2))
    ∧ (IsValidBlock hm n.bc block = false →
        handleNewBlock hm n origin block raw = (n, [])) := by
  constructor
  · intro hv
    have h2 : (AddBlock hm n.bc block).2 = none := (addBlock_ok_fst hm n.bc block hv).1
    have heq : handleNewBlock hm n origin block raw
        = ({ n with bc := (AddBlock hm n.bc block).1 },
           (n.peers.filter (fun p => p.connected)).map (fun p => (p.id, raw))) := by
      unfold handleNewBlock BroadcastMessage
      rw [if_pos hv]
    refine ⟨h2, heq, ?_⟩
    intro hmem hconn
    rw [heq]
    exact List.mem_map.2 ⟨origin, List.mem_filter.2 ⟨hmem, hconn⟩, rfl⟩
  · intro hv
    unfold handleNewBlock
    rw [if_neg (by simp [hv])]

/-- Counterexample for C8 as stated: the node holding peers pA and pB
receives a valid newBlock message from pA and re-broadcasts the raw
message to both peers, pA included, so the origin is not excluded. -/
theorem handleNewBlock_sends_to_origin :
    IsValidBlock hm0 node0.bc blkEmpty = true
    ∧ pA ∈ node0.peers ∧ pA.connected = true
    ∧ (handleNewBlock hm0 node0 pA blkEmpty "raw").2 = [("pA", "raw"), ("pB", "raw")]
    ∧ ("pA", "raw") ∈ (handleNewBlock hm0 node0 pA blkEmpty "raw").2 := by
  decide

/-- Witness for C8: on the concrete node the valid branch commits the
block and the message reaches the origin peer. -/
theorem handleNewBlock_spec_witness :
    (AddBlock hm0 node0.bc blkEmpty).2 = none
    ∧ (pA.id, "m") ∈ (handleNewBlock hm0 node0 pA blkEmpty "m").2 := by
  have h := (handleNewBlock_spec hm0 node0 pA blkEmpty "m").1 (by decide)
  exact ⟨h.1, h.2.2 (by decide) (by decide)⟩

end AetherChain
